import Mathlib

/- Formal model of the multithreaded caching proxy server: the HTTP request
   line parsing of proxy_parse.c, and the LRU cache, task queue and GET fetch
   path of proxy_server.c.  Machine strings are modelled as `List Char`
   (bytes), C NUL termination is explicit, and the in-place tokenization of
   `strtok` is modelled as functional mutation of the buffer region. -/

namespace ProxyVerify

/-- The NUL terminator byte of C strings. -/
def nulC : Char := Char.ofNat 0

/-- One call of C `strtok` on the region `buf`, resuming at saved offset
`pos`, with delimiter set `delims`.  Leading delimiters are skipped; if the
next character is the terminator there is no token; otherwise the token runs
to the next delimiter or terminator.  A token ended by a delimiter has that
delimiter overwritten with NUL (mutating the region) and the saved offset
moves past it.  Returns (token start offset and contents, mutated region,
new saved offset). -/
def strtokStep (delims : List Char) (buf : List Char) (pos : Nat) :
    Option (Nat × List Char) × List Char × Nat :=
  let rest := buf.drop pos
  let skipped := (rest.takeWhile (fun c => delims.contains c)).length
  let start := pos + skipped
  let tok := (rest.dropWhile (fun c => delims.contains c)).takeWhile
      (fun c => !(delims.contains c) && c != nulC)
  if tok.isEmpty then (none, buf, start)
  else
    let fin := start + tok.length
    if buf.getD fin nulC == nulC then (some (start, tok), buf, fin)
    else (some (start, tok), buf.set fin nulC, fin + 1)

/-- The C string starting at offset `i` of region `buf`: its characters up to
the first NUL (what `strdup(buf + i)` copies). -/
def cstrFrom (buf : List Char) (i : Nat) : List Char :=
  (buf.drop i).takeWhile (fun c => c != nulC)

/-- Offset of the first occurrence of `pat` inside `s` (C `strstr`), if any. -/
def findSub (s pat : List Char) : Option Nat :=
  (List.range (s.length + 1)).find? (fun i => pat.isPrefixOf (s.drop i))

/-- Offset (in `s`) of the first occurrence of character `ch` at or after
offset `i`, stopping at the first NUL (C `strchr` applied to `s + i`). -/
def findCharFrom (s : List Char) (i : Nat) (ch : Char) : Option Nat :=
  (((s.drop i).takeWhile (fun c => c != nulC)).findIdx? (fun c => c == ch)).map (i + ·)

/-- The fields of `struct ParsedRequest` as filled in by `ParsedRequest_parse`;
`none` models a NULL pointer (the struct is zeroed by `ParsedRequest_create`). -/
structure PR where
  bufLine : Option (List Char)
  method : Option (List Char)
  version : Option (List Char)
  host : Option (List Char)
  port : Option (List Char)
  path : Option (List Char)
deriving DecidableEq

/-- The memory regions `ParsedRequest_parse` works with: the caller's buffer
`buf` (only ever read, as the `memcpy` source), the private heap copy
`temp_buf` in which all `strtok` tokenization happens, and the `uri_copy`
duplicate made in the GET branch. -/
structure ParseHeap where
  caller : List Char
  temp : List Char
  uriCopy : List Char
deriving DecidableEq

/-- Method name literal compared by `strcmp(parse->method, "CONNECT")`. -/
def connectStr : List Char := "CONNECT".toList

/-- Method name literal compared by `strcmp(parse->method, "GET")`. -/
def getStr : List Char := "GET".toList

/-- The scheme separator searched for with `strstr(uri_ptr, "://")`. -/
def schemeSep : List Char := "://".toList

/-- The CONNECT branch of proxy_parse.c lines 69-76: `host = strtok(uri, ":")`
then `port = strtok(NULL, "")`, each field set only when its token exists.
Returns ((host, port), mutated temp region). -/
def parseConnectURI (t4 : List Char) (us : Nat) :
    (Option (List Char) × Option (List Char)) × List Char :=
  let r1 := strtokStep [':'] t4 us
  let r2 := strtokStep [] r1.2.1 r1.2.2
  ((r1.1.map (·.2), r2.1.map (·.2)), r2.2.1)

/-- The port split of proxy_parse.c lines 101-105: `strchr(parse->host, ':')`;
when a colon is present, NUL is written over it (cutting the host there) and
the suffix after it is duplicated as the port. -/
def splitPort (host0 : List Char) : List Char × Option (List Char) :=
  match host0.findIdx? (fun c => c == ':') with
  | some j => (host0.take j, some (host0.drop (j + 1)))
  | none => (host0, none)

/-- Model of `ParsedRequest_parse` (proxy_parse.c lines 41-116).  Returns the
parse result (`none` models the -1 error return) together with the final
contents of the memory regions.  Steps, mirroring the source: reject buffers
shorter than 4 bytes; copy the input into `temp_buf` and NUL-terminate it;
take the first `"\r\n"`-token as the request line (saving a duplicate into
`parse->buf`); tokenize the line into method, URI and version with `strtok`;
for CONNECT, tokenize the URI on `':'` into host and the rest as port and
return success unconditionally; for GET, duplicate the URI, skip a `"://"`
scheme if present, cut at the first `'/'` into host and path (path defaults
to `"/"`), split a port off the host at the first `':'`, and fail only if the
resulting host is empty; any other method fails. -/
def ParsedRequest_parse_mem (buf : List Char) (buflen : Nat) :
    Option PR × ParseHeap :=
  if buflen < 4 then (none, ⟨buf, [], []⟩)
  else
    let t0 := buf.take buflen ++ [nulC]
    match strtokStep ['\r', '\n'] t0 0 with
    | (none, t1, _) => (none, ⟨buf, t1, []⟩)
    | (some (ls, line), t1, _) =>
      let (methodTok, t2, p2) := strtokStep [' '] t1 ls
      let (uriTok, t3, p3) := strtokStep [' '] t2 p2
      let (verTok, t4, _) := strtokStep [] t3 p3
      match methodTok, uriTok, verTok with
      | some (_, m), some (us, _), some (_, v) =>
        if m = connectStr then
          let pc := parseConnectURI t4 us
          (some ⟨some line, some m, some v, pc.1.1, pc.1.2, none⟩,
            ⟨buf, pc.2, []⟩)
        else if m = getStr then
          let uriCopy0 := cstrFrom t4 us
          let uriPtr := match findSub uriCopy0 schemeSep with
            | some i => i + 3
            | none => 0
          match findCharFrom uriCopy0 uriPtr '/' with
          | none =>
            let host0 := cstrFrom uriCopy0 uriPtr
            let (host1, port1) := splitPort host0
            if host1.length = 0 then (none, ⟨buf, t4, uriCopy0⟩)
            else (some ⟨some line, some m, some v, some host1, port1, some ['/']⟩,
              ⟨buf, t4, uriCopy0⟩)
          | some slashIdx =>
            let uc1 := uriCopy0.set slashIdx nulC
            let host0 := cstrFrom uc1 uriPtr
            let uc2 := uc1.set slashIdx '/'
            let path0 := cstrFrom uc2 slashIdx
            let (host1, port1) := splitPort host0
            if host1.length = 0 then (none, ⟨buf, t4, uc2⟩)
            else (some ⟨some line, some m, some v, some host1, port1, some path0⟩,
              ⟨buf, t4, uc2⟩)
        else (none, ⟨buf, t4, []⟩)
      | _, _, _ => (none, ⟨buf, t4, []⟩)

/-- The result component of `ParsedRequest_parse_mem`: what the -1/0 return
plus the populated struct amount to. -/
def ParsedRequest_parse (buf : List Char) (buflen : Nat) : Option PR :=
  (ParsedRequest_parse_mem buf buflen).1

/-- The origin request synthesized by `handle_http_request` (proxy_server.c
lines 380-383): `snprintf(new_request, sizeof(new_request), "GET %s %s\r\nHost:
%s\r\nConnection: close\r\n\r\n", req->path, req->version, req->host)`, with
the `MAX_REQUEST_LEN` (8192) buffer bound of `snprintf` made explicit. -/
def synthOriginRequest (path version host : List Char) : List Char :=
  ("GET ".toList ++ path ++ [' '] ++ version ++ "\r\nHost: ".toList ++ host ++
    "\r\nConnection: close\r\n\r\n".toList).take (8192 - 1)

/-- The djb2 hash of proxy_server.c lines 126-130, on a 64-bit
`unsigned long`: `hash = hash * 33 + c` starting from 5381, reduced mod 2^64
at each step. -/
def hashC (s : List Char) : Nat :=
  s.foldl (fun h c => (h * 33 + c.toNat) % 2 ^ 64) 5381

/-- The bucket index `hash(key) % table_size`. -/
def hashIdx (tsize : Nat) (s : List Char) : Nat := hashC s % tsize

/-- A `CacheNode` of proxy_server.c: key, owned payload bytes and their size.
The recency links `prev`/`next` and the chain link `h_next` are represented by
the node's position in the cache's recency list and bucket lists; node
identity (the pointer) is the numeric id attached in the cache structure. -/
structure CacheNode where
  key : List Char
  data : List Nat
  data_size : Nat
deriving DecidableEq

/-- The `LRUCache` of proxy_server.c.  `nodes` is the doubly-linked recency
list, head (MRU) first, holding `(id, node)` pairs where `id` stands for the
node's address; `table` is the hash table of bucket chains of ids, chain head
first; `size` is the current byte total; `nextId` generates fresh addresses
for `malloc`. -/
structure LRUCache where
  capacity : Nat
  tableSize : Nat
  nodes : List (Nat × CacheNode)
  table : List (List Nat)
  size : Nat
  nextId : Nat
deriving DecidableEq

/-- `create_cache` (lines 140-146). -/
def createCache (capacity tableSize : Nat) : LRUCache :=
  ⟨capacity, tableSize, [], List.replicate tableSize [], 0, 0⟩

/-- Reading the node behind pointer `id`, if it is still allocated. -/
def lookupNode (c : LRUCache) (id : Nat) : Option CacheNode :=
  (c.nodes.find? (fun p => p.1 == id)).map (·.2)

/-- The chain comparison `strcmp(node->key, key) == 0` made on each bucket
element during `get_from_cache`. -/
def keyAt (c : LRUCache) (id : Nat) (key : List Char) : Bool :=
  match lookupNode c id with
  | some n => n.key == key
  | none => false

/-- `detach_node` followed by `attach_to_front` on the node `id` (lines
131-139): the node is unlinked from the recency list and relinked at the MRU
end. -/
def promote (nodes : List (Nat × CacheNode)) (id : Nat) :
    List (Nat × CacheNode) :=
  match nodes.find? (fun p => p.1 == id) with
  | some p => p :: nodes.eraseP (fun q => q.1 == id)
  | none => nodes

/-- `get_from_cache` (lines 147-163): walk the bucket chain of `hash(key)`;
on a hit move the node to the MRU end and return the node pointer; on a miss
return NULL.  The result is the `CacheNode *` return value (an id, not a copy
of the bytes) together with the updated cache. -/
def getFromCache (c : LRUCache) (key : List Char) : Option Nat × LRUCache :=
  match (c.table.getD (hashIdx c.tableSize key) []).find?
      (fun id => keyAt c id key) with
  | some id => (some id, { c with nodes := promote c.nodes id })
  | none => (none, c)

/-- `evict_lru` (lines 164-179): if the recency list is non-empty, unlink its
tail node, remove that node from its hash bucket, subtract its size, and free
it. -/
def evictLru (c : LRUCache) : LRUCache :=
  match c.nodes.getLast? with
  | none => c
  | some (id, n) =>
    let h := hashIdx c.tableSize n.key
    { c with nodes := c.nodes.dropLast,
             table := c.table.set h ((c.table.getD h []).erase id),
             size := c.size - n.data_size }

/-- The eviction loop of `put_in_cache` (line 185): `while (cache->size +
data_size > cache->capacity) evict_lru();`.  Each iteration that makes
progress shortens the recency list by one, so `fuel` iterations with `fuel`
at least the list length are exhaustive; `none` models the loop spinning
forever, which is what the C does when eviction runs on an empty cache. -/
def evictLoopFuel : Nat → LRUCache → Nat → Option LRUCache
  | 0, c, need => if c.size + need > c.capacity then none else some c
  | fuel' + 1, c, need =>
    if c.size + need > c.capacity then
      match c.nodes.getLast? with
      | none => none
      | some _ => evictLoopFuel fuel' (evictLru c) need
    else some c

/-- The eviction loop entered with the cache's own list length as bound. -/
def evictLoop (c : LRUCache) (need : Nat) : Option LRUCache :=
  evictLoopFuel c.nodes.length c need

/-- `put_in_cache` (lines 180-198): items above `g_max_element_size` are
rejected (cache unchanged); otherwise evict until the item fits, allocate a
node holding copies of the key and the first `data_size` bytes of `data`,
attach it at the MRU end, account its size, and push it on the front of its
hash bucket.  `none` models the non-terminating eviction loop. -/
def putInCache (elemMax : Nat) (c : LRUCache) (key : List Char)
    (data : List Nat) (dsize : Nat) : Option LRUCache :=
  if dsize > elemMax then some c
  else
    match evictLoop c dsize with
    | none => none
    | some c1 =>
      some { c1 with
             nodes := (c1.nextId, (⟨key, data.take dsize, dsize⟩ : CacheNode))
               :: c1.nodes,
             table := c1.table.set (hashIdx c1.tableSize key)
               (c1.nextId :: c1.table.getD (hashIdx c1.tableSize key) []),
             size := c1.size + dsize,
             nextId := c1.nextId + 1 }

/-- `put_in_cache` with the outcome of the unchecked `malloc`/`strdup` calls
at lines 186-188 made explicit.  When `allocOk` is false, `malloc` returned
NULL and the code goes on to dereference it (`new_node->key = strdup(key)`),
which is a crash, modelled as `none`; no warning is logged and no cleanup
happens. -/
def putInCacheAlloc (elemMax : Nat) (allocOk : Bool) (c : LRUCache)
    (key : List Char) (data : List Nat) (dsize : Nat) : Option LRUCache :=
  if dsize > elemMax then some c
  else
    match evictLoop c dsize with
    | none => none
    | some c1 =>
      if allocOk then
        some { c1 with
               nodes := (c1.nextId, (⟨key, data.take dsize, dsize⟩ : CacheNode))
                 :: c1.nodes,
               table := c1.table.set (hashIdx c1.tableSize key)
                 (c1.nextId :: c1.table.getD (hashIdx c1.tableSize key) []),
               size := c1.size + dsize,
               nextId := c1.nextId + 1 }
      else none

/-- The origin-response loop of `handle_http_request` (lines 390-395): each
`recv` asks for `g_max_element_size - total_response_size` bytes and the
model delivers as many of the remaining origin bytes as fit that request
(`recv` with a zero-byte request returns 0, ending the loop); every received
chunk is sent to the client and accumulated.  Each productive iteration
consumes at least one origin byte, so `fuel` at least the stream length is
exhaustive.  Returns (bytes sent to the client, final total). -/
def fetchLoopFuel : Nat → Nat → Nat → List Nat → List Nat × Nat
  | fuel, elemMax, total, stream =>
    let chunk := stream.take (elemMax - total)
    if chunk.isEmpty then ([], total)
    else
      match fuel with
      | 0 => ([], total)
      | fuel' + 1 =>
        let r := fetchLoopFuel fuel' elemMax (total + chunk.length)
          (stream.drop (elemMax - total))
        (chunk ++ r.1, r.2)

/-- The response loop entered with the stream length as iteration bound. -/
def fetchLoop (elemMax : Nat) (stream : List Nat) : List Nat × Nat :=
  fetchLoopFuel stream.length elemMax 0 stream

/-- The cache-miss tail of `handle_http_request` (lines 388-400): read the
origin response through `fetchLoop`, forwarding it to the client, then insert
the accumulated buffer under `key` when any bytes arrived.  Returns the bytes
the client received and the resulting cache (`none` models the spinning
eviction loop). -/
def httpFetchOnMiss (elemMax : Nat) (c : LRUCache) (key : List Char)
    (stream : List Nat) : List Nat × Option LRUCache :=
  let r := fetchLoop elemMax stream
  (r.1, if 0 < r.2 then putInCache elemMax c key r.1 r.2 else some c)

/-- The task queue of proxy_server.c lines 201-205: a circular buffer of
socket descriptors. -/
structure TaskQueue where
  sockets : List Int
  capacity : Nat
  size : Nat
  head : Nat
  tail : Nat
deriving DecidableEq

/-- `init_task_queue` (lines 206-212); the `malloc`ed array contents are
arbitrary, taken as zeros (only slots previously written are ever read). -/
def initTaskQueue (capacity : Nat) : TaskQueue :=
  ⟨List.replicate capacity 0, capacity, 0, 0, 0⟩

/-- The body of `enqueue_task` (lines 213-221) once the `not_full` wait has
established `size < capacity`: write at `tail`, advance it circularly, grow
`size`. -/
def enqueueTask (q : TaskQueue) (s : Int) : TaskQueue :=
  { q with sockets := q.sockets.set q.tail s,
           tail := (q.tail + 1) % q.capacity,
           size := q.size + 1 }

/-- The body of `dequeue_task` (lines 222-232) once the `not_empty` wait has
returned: with the queue empty and the server stopping it returns -1 and
leaves the queue alone; otherwise it reads the slot at `head`, advances it
circularly and shrinks `size`. -/
def dequeueTask (running : Bool) (q : TaskQueue) : Int × TaskQueue :=
  if q.size = 0 ∧ running = false then (-1, q)
  else
    (q.sockets.getD q.head 0,
      { q with head := (q.head + 1) % q.capacity, size := q.size - 1 })

/- ------------------------------------------------------------------ -/
/- Concrete inputs used by the claim theorems.                          -/
/- ------------------------------------------------------------------ -/

/-- A `ParsedRequest` as `ParsedRequest_create` leaves it: all fields NULL. -/
def prDefault : PR := ⟨none, none, none, none, none, none⟩

/-- Cache key used in the oversize-response scenario. -/
def c1Key : List Char := "k".toList

/-- The oversize-response run: element cap 2 bytes, empty cache of capacity
10, origin response of 3 bytes. -/
def c1Run : List Nat × Option LRUCache :=
  httpFetchOnMiss 2 (createCache 10 4) c1Key [1, 2, 3]

/-- A CONNECT request line whose URI has no colon at all. -/
def c2NoColon : List Char := "CONNECT example.com HTTP/1.1\r\n".toList

/-- A CONNECT request line whose URI has two colons. -/
def c2MultiColon : List Char := "CONNECT a:b:c HTTP/1.1\r\n".toList

/-- The parse of the colon-free CONNECT request. -/
def c2pr1 : PR := (ParsedRequest_parse c2NoColon c2NoColon.length).getD prDefault

/-- The parse of the two-colon CONNECT request. -/
def c2pr2 : PR := (ParsedRequest_parse c2MultiColon c2MultiColon.length).getD prDefault

/-- A well-formed CONNECT request line. -/
def c2Good : List Char := "CONNECT example.com:443 HTTP/1.1\r\n".toList

/-- The parse of the well-formed CONNECT request. -/
def c2GoodPr : PR := (ParsedRequest_parse c2Good c2Good.length).getD prDefault

/-- Key resident in the use-after-free scenario. -/
def c3KeyA : List Char := "a".toList

/-- Key whose insertion evicts the resident entry. -/
def c3KeyB : List Char := "b".toList

/-- A full cache (capacity 1, element cap 1) holding `c3KeyA`. -/
def c3c1 : LRUCache :=
  (putInCache 1 (createCache 1 4) c3KeyA [7] 1).getD (createCache 1 4)

/-- The cache after `get_from_cache(c3KeyA)` has promoted the entry. -/
def c3c2 : LRUCache := (getFromCache c3c1 c3KeyA).2

/-- The cache after a subsequent `put_in_cache(c3KeyB, ...)` forced eviction. -/
def c3c3 : LRUCache := (putInCache 1 c3c2 c3KeyB [9] 1).getD c3c2

/-- The key inserted twice in the duplicate-insertion scenario. -/
def c4Key : List Char := "k".toList

/-- Cache after the first `put_in_cache(c4Key, [1], 1)`. -/
def c4a : LRUCache :=
  (putInCache 5 (createCache 10 4) c4Key [1] 1).getD (createCache 10 4)

/-- Cache after the second `put_in_cache(c4Key, [2], 1)` for the same key. -/
def c4b : LRUCache := (putInCache 5 c4a c4Key [2] 1).getD c4a

/-- Key used in the allocation-failure scenario. -/
def c6Key : List Char := "k".toList

/-- The request line of the round-trip check. -/
def c7Buf : List Char := "GET http://example.com/a HTTP/1.0\r\n".toList

/-- Its parse. -/
def c7pr : PR := (ParsedRequest_parse c7Buf c7Buf.length).getD prDefault

/-- The expected synthesized origin request. -/
def c7Expected : List Char :=
  "GET /a HTTP/1.0\r\nHost: example.com\r\nConnection: close\r\n\r\n".toList

/- ------------------------------------------------------------------ -/
/- Parser lemmas.                                                      -/
/- ------------------------------------------------------------------ -/

/-- A token produced by `strtok` is never empty: after skipping delimiters,
a token is returned only when a non-delimiter, non-NUL character is present. -/
theorem strtokStep_some_ne_nil {d b : List Char} {p s : Nat} {t b' : List Char}
    {p' : Nat} (h : strtokStep d b p = (some (s, t), b', p')) : t ≠ [] := by
  simp only [strtokStep] at h
  split at h
  · simp at h
  · next hguard =>
      split at h <;>
      · simp only [Prod.mk.injEq, Option.some.injEq] at h
        obtain ⟨⟨-, ht⟩, -⟩ := h
        intro hnil
        exact hguard (by rw [ht.trans hnil]; rfl)

/-- Whatever the buffer contents, the CONNECT split never produces an empty
host or an empty port: unset fields stay NULL, set fields are strtok tokens. -/
theorem parseConnectURI_ne_empty (t4 : List Char) (us : Nat) :
    (parseConnectURI t4 us).1.1 ≠ some [] ∧ (parseConnectURI t4 us).1.2 ≠ some [] := by
  simp only [parseConnectURI]
  rcases h1 : strtokStep [':'] t4 us with ⟨hostTok, t5, p5⟩
  rcases h2 : strtokStep [] t5 p5 with ⟨portTok, t6, p6⟩
  constructor
  · rcases hostTok with - | ⟨a, tk⟩
    · simp
    · intro hnil
      simp at hnil
      exact strtokStep_some_ne_nil h1 hnil
  · rcases portTok with - | ⟨a, tk⟩
    · simp
    · intro hnil
      simp at hnil
      exact strtokStep_some_ne_nil h2 hnil

/- ------------------------------------------------------------------ -/
/- Claim theorems: parser.                                             -/
/- ------------------------------------------------------------------ -/

/-- C2 counterexample.  The claim says the CONNECT URI is split on its last
colon and parsing succeeds only when both halves are non-empty.  In fact
`CONNECT example.com HTTP/1.1` (no colon) parses successfully with `port`
left NULL, and `CONNECT a:b:c HTTP/1.1` is split at the first colon (host
`a`, port `b:c`, where a last-colon split would give host `a:b`, port `c`). -/
theorem connect_parse_counterexample :
    (ParsedRequest_parse c2NoColon c2NoColon.length).isSome = true ∧
    c2pr1.method = some connectStr ∧ c2pr1.port = none ∧
    (ParsedRequest_parse c2MultiColon c2MultiColon.length).isSome = true ∧
    c2pr2.host = some ("a".toList) ∧ c2pr2.port = some ("b:c".toList) := by
  decide

/-- C2 (amended).  The parser splits the CONNECT URI at its first colon with
`strtok` and succeeds regardless, so `host` or `port` may be left unset; but
any field that is set is a non-empty string. -/
theorem connect_parse_sets_nonempty_host_port (buf : List Char) (buflen : Nat)
    (pr : PR) (hp : ParsedRequest_parse buf buflen = some pr)
    (hm : pr.method = some connectStr) :
    pr.host ≠ some [] ∧ pr.port ≠ some [] := by
  simp only [ParsedRequest_parse, ParsedRequest_parse_mem] at hp
  split at hp
  · simp at hp
  · split at hp
    · simp at hp
    · split at hp
      · split at hp
        · -- CONNECT branch: fields come from parseConnectURI
          simp at hp
          subst hp
          exact parseConnectURI_ne_empty _ _
        · -- method is not CONNECT: a successful parse contradicts hm
          rename_i hconn
          exfalso
          split at hp
          · split at hp <;> split at hp <;> simp at hp <;>
              (subst hp; simp at hm; exact hconn hm)
          · simp at hp
      all_goals simp at hp

/-- C2 (amended), witnessed on `CONNECT example.com:443 HTTP/1.1`. -/
theorem connect_parse_sets_nonempty_host_port_witness :
    c2GoodPr.host ≠ some [] ∧ c2GoodPr.port ≠ some [] :=
  connect_parse_sets_nonempty_host_port c2Good c2Good.length c2GoodPr
    (by decide) (by decide)

/-- C7.  Parsing `GET http://example.com/a HTTP/1.0` and synthesizing the
origin request from the parsed fields gives exactly
`GET /a HTTP/1.0\r\nHost: example.com\r\nConnection: close\r\n\r\n`. -/
theorem parse_then_synthesize_roundtrip :
    (ParsedRequest_parse c7Buf c7Buf.length).isSome = true ∧
    c7pr.host = some ("example.com".toList) ∧
    c7pr.path = some ("/a".toList) ∧
    c7pr.version = some ("HTTP/1.0".toList) ∧
    c7pr.port = none ∧
    synthOriginRequest (c7pr.path.getD []) (c7pr.version.getD [])
      (c7pr.host.getD []) = c7Expected := by
  decide

/- ------------------------------------------------------------------ -/
/- Claim theorems: cache, concrete scenarios.                          -/
/- ------------------------------------------------------------------ -/

/-- C1.  With `element_size_max = 2` and a 3-byte origin response, the claim
says the client receives all 3 bytes and the cache stays unchanged.  In fact
the `recv` loop stops once the buffer holds `element_size_max` bytes (a
zero-length `recv` returns 0), so the client only receives the first 2 bytes,
and since the accumulated total equals (does not exceed) `element_size_max`,
the truncated 2-byte buffer is inserted into the cache. -/
theorem oversize_response_truncated_and_cached :
    c1Run.1 = [1, 2] ∧
    c1Run.1 ≠ [1, 2, 3] ∧
    c1Run.2.map (fun c => c.nodes.map (fun p => (p.2.key, p.2.data, p.2.data_size))) =
      some [(c1Key, [1, 2], 2)] ∧
    c1Run.2 ≠ some (createCache 10 4) := by
  decide

/-- C3.  `get_from_cache` returns the `CacheNode *` itself after releasing
the lock, not a copy of the payload: on the hit for key `a` the caller gets
node id 0, which still designates cache-owned storage; the next `put`
(capacity full) evicts and frees that very node, so the reference the caller
is still using to `send()` the payload dangles. -/
theorem get_returns_reference_freed_by_eviction :
    (getFromCache c3c1 c3KeyA).1 = some 0 ∧
    lookupNode c3c2 0 = some ⟨c3KeyA, [7], 1⟩ ∧
    lookupNode c3c3 0 = none := by
  decide

/-- C4.  `put_in_cache` never looks for an existing entry: inserting the same
key twice leaves two distinct resident nodes with that key, in the recency
list and in the same hash bucket, instead of overwriting. -/
theorem put_duplicate_key_not_overwritten :
    (c4b.nodes.filter (fun p => p.2.key == c4Key)).length = 2 ∧
    (c4b.table.flatten.filter
      (fun id => (lookupNode c4b id).map (·.key) == some c4Key)).length = 2 := by
  decide

/-- C6.  The `malloc`/`strdup` results in `put_in_cache` are never checked:
when allocation fails the code dereferences the NULL node pointer (modelled
`none`, a crash) instead of logging a warning and skipping the insert; with
allocation succeeding the same call inserts normally. -/
theorem put_alloc_failure_crashes :
    putInCacheAlloc 5 false (createCache 10 4) c6Key [1] 1 = none ∧
    putInCacheAlloc 5 true (createCache 10 4) c6Key [1] 1 ≠ none ∧
    (none : Option LRUCache) ≠ some (createCache 10 4) := by
  decide

/- ------------------------------------------------------------------ -/
/- Cache structural invariant (C5) and eviction termination (C9).      -/
/- ------------------------------------------------------------------ -/

/-- The node ids (addresses) on the recency list, MRU first. -/
def ids (nodes : List (Nat × CacheNode)) : List Nat := nodes.map Prod.fst

/-- Total payload bytes held by the listed nodes. -/
def sumSizes (nodes : List (Nat × CacheNode)) : Nat :=
  (nodes.map (fun p => p.2.data_size)).sum

/-- Structural invariant of the cache: byte accounting is exact and within
capacity, node ids are unique, the recency list and the hash chains hold
exactly the same nodes (each appearing once in each), every chained node
hashes to its bucket, and `nextId` is fresh. -/
structure CacheInv (c : LRUCache) : Prop where
  tpos : 0 < c.tableSize
  tlen : c.table.length = c.tableSize
  size_eq : c.size = sumSizes c.nodes
  size_le : c.size ≤ c.capacity
  ndup : (ids c.nodes).Nodup
  fdup : c.table.flatten.Nodup
  mem_iff : ∀ id, id ∈ ids c.nodes ↔ id ∈ c.table.flatten
  buckets : ∀ i, i < c.table.length → ∀ id ∈ c.table.getD i [],
    ∃ n, (id, n) ∈ c.nodes ∧ hashIdx c.tableSize n.key = i
  fresh : ∀ id ∈ ids c.nodes, id < c.nextId

/-- Flattening a table of empty buckets gives nothing. -/
theorem flatten_replicate_nil (n : Nat) :
    (List.replicate n ([] : List Nat)).flatten = [] := by
  induction n with
  | zero => rfl
  | succ k ih => simp [List.replicate_succ, ih]

/-- Every bucket of the freshly created table is empty. -/
theorem getD_replicate_nil (n i : Nat) :
    (List.replicate n ([] : List Nat)).getD i [] = [] := by
  rw [List.getD_eq_getElem?_getD]
  rcases Nat.lt_or_ge i n with h | h
  · simp [List.getElem?_replicate, h]
  · rw [List.getElem?_eq_none (by simpa using h)]
    rfl

/-- Reading a bucket just overwritten. -/
theorem getD_set_self {α : Type} {l : List α} {i : Nat} (h : i < l.length)
    (b d : α) : (l.set i b).getD i d = b := by
  rw [List.getD_eq_getElem?_getD, List.getElem?_set_eq_of_lt _ h]
  rfl

/-- Reading a bucket other than the overwritten one. -/
theorem getD_set_ne {α : Type} {l : List α} {i j : Nat} (h : j ≠ i)
    (b d : α) : (l.set j b).getD i d = l.getD i d := by
  rw [List.getD_eq_getElem?_getD, List.getD_eq_getElem?_getD,
    List.getElem?_set_ne h]

/-- An element of the flattened table lies in some bucket. -/
theorem mem_flatten_idx {l : List (List Nat)} {x : Nat} (h : x ∈ l.flatten) :
    ∃ j, j < l.length ∧ x ∈ l.getD j [] := by
  obtain ⟨s, hs, hx⟩ := List.mem_flatten.mp h
  obtain ⟨j, hj, hgj⟩ := List.mem_iff_getElem.mp hs
  refine ⟨j, hj, ?_⟩
  rw [List.getD_eq_getElem?_getD, List.getElem?_eq_getElem hj,
    Option.getD_some, hgj]
  exact hx

/-- The flattened table decomposed around bucket `i`. -/
theorem flatten_decomp (l : List (List Nat)) (i : Nat) (h : i < l.length) :
    l.flatten = (l.take i).flatten ++ l.getD i [] ++ (l.drop (i + 1)).flatten := by
  induction l generalizing i with
  | nil => simp at h
  | cons hd tl ih =>
    cases i with
    | zero => simp
    | succ j =>
      have hj : j < tl.length := by simpa using h
      simp [ih j hj, List.append_assoc]

/-- The flattened table decomposed after overwriting bucket `i`. -/
theorem flatten_set_decomp (l : List (List Nat)) (i : Nat) (h : i < l.length)
    (b : List Nat) :
    (l.set i b).flatten = (l.take i).flatten ++ b ++ (l.drop (i + 1)).flatten := by
  induction l generalizing i with
  | nil => simp at h
  | cons hd tl ih =>
    cases i with
    | zero => simp
    | succ j =>
      have hj : j < tl.length := by simpa using h
      simp [ih j hj, List.append_assoc]

/-- With unique ids, the recency list is a function of the id. -/
theorem assoc_unique {nodes : List (Nat × CacheNode)}
    (hnd : (ids nodes).Nodup) {id : Nat} {n n' : CacheNode}
    (h1 : (id, n) ∈ nodes) (h2 : (id, n') ∈ nodes) : n = n' := by
  induction nodes with
  | nil => cases h1
  | cons hd tl ih =>
    simp only [ids, List.map_cons, List.nodup_cons] at hnd
    rcases List.mem_cons.mp h1 with ha | ha
    · rcases List.mem_cons.mp h2 with hb | hb
      · have h12 := ha.trans hb.symm
        simp only [Prod.mk.injEq] at h12
        exact h12.2
      · exfalso
        apply hnd.1
        rw [← ha]
        exact List.mem_map.mpr ⟨(id, n'), hb, rfl⟩
    · rcases List.mem_cons.mp h2 with hb | hb
      · exfalso
        apply hnd.1
        rw [← hb]
        exact List.mem_map.mpr ⟨(id, n), ha, rfl⟩
      · exact ih (by simpa [ids] using hnd.2) ha hb

/-- Unlinking the first element found by a predicate and re-consing it is a
permutation. -/
theorem perm_cons_eraseP {α : Type} {pred : α → Bool} {l : List α} {p : α}
    (h : l.find? pred = some p) : l.Perm (p :: l.eraseP pred) := by
  induction l with
  | nil => simp at h
  | cons hd tl ih =>
    by_cases hc : pred hd = true
    · rw [List.find?_cons_of_pos _ hc] at h
      injection h with h
      subst h
      rw [List.eraseP_cons_of_pos hc]
    · rw [List.find?_cons_of_neg _ (by simp [hc])] at h
      rw [List.eraseP_cons_of_neg (by simp [hc])]
      exact ((ih h).cons hd).trans (List.Perm.swap _ _ _)

/-- Moving a node to the MRU end permutes the recency list. -/
theorem promote_perm (nodes : List (Nat × CacheNode)) (id : Nat) :
    nodes.Perm (promote nodes id) := by
  unfold promote
  split
  · next p hfind => exact perm_cons_eraseP hfind
  · exact List.Perm.refl _

/-- `create_cache` establishes the invariant. -/
theorem cacheInv_create (cap tsize : Nat) (h : 0 < tsize) :
    CacheInv (createCache cap tsize) where
  tpos := h
  tlen := by simp [createCache]
  size_eq := rfl
  size_le := Nat.zero_le _
  ndup := List.nodup_nil
  fdup := by
    simp only [createCache, flatten_replicate_nil]
    exact List.nodup_nil
  mem_iff := by
    intro id
    simp [createCache, ids, flatten_replicate_nil]
  buckets := by
    intro i hi id hid
    simp only [createCache, getD_replicate_nil] at hid
    cases hid
  fresh := by
    intro id hid
    simp [createCache, ids] at hid

/-- `get_from_cache` preserves the invariant and the configuration. -/
theorem cacheInv_get {c : LRUCache} (h : CacheInv c) (key : List Char) :
    CacheInv (getFromCache c key).2 ∧
      (getFromCache c key).2.capacity = c.capacity := by
  unfold getFromCache
  split
  · next id hfind =>
      have hperm : c.nodes.Perm (promote c.nodes id) := promote_perm c.nodes id
      have hpids : (ids c.nodes).Perm (ids (promote c.nodes id)) :=
        hperm.map Prod.fst
      refine ⟨?_, rfl⟩
      exact {
        tpos := h.tpos
        tlen := h.tlen
        size_eq := by
          have hs := (hperm.map (fun p => p.2.data_size)).sum_eq
          simpa [sumSizes] using h.size_eq.trans hs
        size_le := h.size_le
        ndup := hpids.nodup_iff.mp h.ndup
        fdup := h.fdup
        mem_iff := fun x => (hpids.mem_iff).symm.trans (h.mem_iff x)
        buckets := by
          intro i hi id' hid'
          obtain ⟨n, hn, hh⟩ := h.buckets i hi id' hid'
          exact ⟨n, hperm.subset hn, hh⟩
        fresh := fun x hx => h.fresh x (hpids.mem_iff.mpr hx) }
  · exact ⟨h, rfl⟩

/-- Eviction does not touch the configuration fields. -/
theorem evictLru_fields (c : LRUCache) :
    (evictLru c).capacity = c.capacity ∧ (evictLru c).tableSize = c.tableSize ∧
      (evictLru c).nextId = c.nextId := by
  unfold evictLru
  split <;> exact ⟨rfl, rfl, rfl⟩

/-- Eviction drops the tail of the recency list. -/
theorem evictLru_nodes {c : LRUCache} {id : Nat} {n : CacheNode}
    (h : c.nodes.getLast? = some (id, n)) :
    (evictLru c).nodes = c.nodes.dropLast := by
  simp [evictLru, h]

/-- Eviction keeps the byte accounting exact. -/
theorem evictLru_sum {c : LRUCache} (hsz : c.size = sumSizes c.nodes) :
    (evictLru c).size = sumSizes (evictLru c).nodes := by
  rcases hlast : c.nodes.getLast? with - | ⟨id, n⟩
  · simp only [evictLru, hlast]
    exact hsz
  · have hsplit := List.dropLast_append_getLast? _ (Option.mem_def.mpr hlast)
    have hsum : sumSizes c.nodes = sumSizes c.nodes.dropLast + n.data_size := by
      conv_lhs => rw [← hsplit]
      simp [sumSizes]
    simp only [evictLru, hlast]
    rw [hsz, hsum, Nat.add_sub_cancel]

/-- `evict_lru` preserves the cache invariant. -/
theorem cacheInv_evict {c : LRUCache} (h : CacheInv c) : CacheInv (evictLru c) := by
  rcases hlast : c.nodes.getLast? with - | ⟨id, n⟩
  · simp only [evictLru, hlast]
    exact h
  · have hsplit : c.nodes.dropLast ++ [(id, n)] = c.nodes :=
      List.dropLast_append_getLast? _ (Option.mem_def.mpr hlast)
    have hmem : (id, n) ∈ c.nodes := by
      rw [← hsplit]
      exact List.mem_append_right _ (List.mem_singleton_self _)
    have hid : id ∈ ids c.nodes := by
      exact List.mem_map.mpr ⟨(id, n), hmem, rfl⟩
    have hH : hashIdx c.tableSize n.key < c.table.length := by
      rw [h.tlen]
      exact Nat.mod_lt _ h.tpos
    -- locate the bucket that holds the evicted id: it is its hash bucket
    obtain ⟨j, hj, hjmem⟩ := mem_flatten_idx ((h.mem_iff id).mp hid)
    obtain ⟨n', hn'1, hn'2⟩ := h.buckets j hj id hjmem
    have hn'n : n' = n := assoc_unique h.ndup hn'1 hmem
    rw [hn'n] at hn'2
    subst hn'2
    -- decompositions of the flattened table around that bucket
    have hdec := flatten_decomp c.table _ hH
    have hdec' := flatten_set_decomp c.table _ hH
      ((c.table.getD (hashIdx c.tableSize n.key) []).erase id)
    have hnd0 := h.fdup
    rw [hdec] at hnd0
    have hbkN : (c.table.getD (hashIdx c.tableSize n.key) []).Nodup :=
      hnd0.of_append_left.of_append_right
    have hdisjAB := (List.nodup_append.mp hnd0).2.2
    have hdisjA := (List.nodup_append.mp (List.nodup_append.mp hnd0).1).2.2
    have hA : id ∉ (c.table.take (hashIdx c.tableSize n.key)).flatten :=
      fun hx => hdisjA hx hjmem
    have hB : id ∉ (c.table.drop (hashIdx c.tableSize n.key + 1)).flatten :=
      fun hx => hdisjAB (List.mem_append_right _ hjmem) hx
    -- the ids of the shortened recency list
    have hids : ids c.nodes = ids c.nodes.dropLast ++ [id] := by
      conv_lhs => rw [← hsplit]
      simp [ids]
    have hidnd := h.ndup
    rw [hids] at hidnd
    have hidnotin : id ∉ ids c.nodes.dropLast := by
      intro hx
      exact (List.nodup_append.mp hidnd).2.2 hx (List.mem_singleton_self _)
    have heq : evictLru c =
        { c with
          nodes := c.nodes.dropLast,
          table := c.table.set (hashIdx c.tableSize n.key)
            ((c.table.getD (hashIdx c.tableSize n.key) []).erase id),
          size := c.size - n.data_size } := by
      simp [evictLru, hlast]
    rw [heq]
    have hsum : sumSizes c.nodes = sumSizes c.nodes.dropLast + n.data_size := by
      conv_lhs => rw [← hsplit]
      simp [sumSizes]
    refine { tpos := h.tpos, tlen := ?_, size_eq := ?_, size_le := ?_,
             ndup := ?_, fdup := ?_, mem_iff := ?_, buckets := ?_, fresh := ?_ }
    · simp [List.length_set, h.tlen]
    · show c.size - n.data_size = sumSizes c.nodes.dropLast
      rw [h.size_eq, hsum, Nat.add_sub_cancel]
    · exact Nat.le_trans (Nat.sub_le _ _) h.size_le
    · exact h.ndup.sublist ((List.dropLast_sublist _).map Prod.fst)
    · show ((c.table.set _ _).flatten).Nodup
      rw [hdec']
      have hsub : List.Sublist
          ((c.table.take (hashIdx c.tableSize n.key)).flatten ++
            (c.table.getD (hashIdx c.tableSize n.key) []).erase id ++
            (c.table.drop (hashIdx c.tableSize n.key + 1)).flatten)
          ((c.table.take (hashIdx c.tableSize n.key)).flatten ++
            c.table.getD (hashIdx c.tableSize n.key) [] ++
            (c.table.drop (hashIdx c.tableSize n.key + 1)).flatten) :=
        ((List.Sublist.refl _).append (List.erase_sublist _ _)).append
          (List.Sublist.refl _)
      exact hnd0.sublist hsub
    · intro x
      show x ∈ ids c.nodes.dropLast ↔ x ∈ (c.table.set _ _).flatten
      rw [hdec']
      constructor
      · intro hx
        have hxn : x ∈ ids c.nodes := by
          rw [hids]
          exact List.mem_append_left _ hx
        have hxf := (h.mem_iff x).mp hxn
        rw [hdec] at hxf
        have hxid : x ≠ id := fun he => hidnotin (he ▸ hx)
        rcases List.mem_append.mp hxf with hx1 | hx2
        · rcases List.mem_append.mp hx1 with hx1a | hx1b
          · exact List.mem_append_left _ (List.mem_append_left _ hx1a)
          · exact List.mem_append_left _ (List.mem_append_right _
              (hbkN.mem_erase_iff.mpr ⟨hxid, hx1b⟩))
        · exact List.mem_append_right _ hx2
      · intro hx
        have hxm : x ∈ c.table.flatten ∧ x ≠ id := by
          rw [hdec]
          rcases List.mem_append.mp hx with hx1 | hx2
          · rcases List.mem_append.mp hx1 with hx1a | hx1b
            · exact ⟨List.mem_append_left _ (List.mem_append_left _ hx1a),
                fun he => hA (he ▸ hx1a)⟩
            · have h2 := hbkN.mem_erase_iff.mp hx1b
              exact ⟨List.mem_append_left _ (List.mem_append_right _ h2.2), h2.1⟩
          · exact ⟨List.mem_append_right _ hx2, fun he => hB (he ▸ hx2)⟩
        have hxn := (h.mem_iff x).mpr hxm.1
        rw [hids] at hxn
        rcases List.mem_append.mp hxn with hx1 | hx2
        · exact hx1
        · exact absurd (List.mem_singleton.mp hx2) hxm.2
    · intro i hi id' hid'
      have hi' : i < c.table.length := by simpa [List.length_set] using hi
      by_cases hcase : i = hashIdx c.tableSize n.key
      · subst hcase
        rw [getD_set_self hH] at hid'
        have h2 := hbkN.mem_erase_iff.mp hid'
        obtain ⟨n'', hn''1, hn''2⟩ := h.buckets _ hH id' h2.2
        refine ⟨n'', ?_, hn''2⟩
        rw [← hsplit] at hn''1
        rcases List.mem_append.mp hn''1 with hmem1 | hmem2
        · exact hmem1
        · exact absurd (congrArg Prod.fst (List.mem_singleton.mp hmem2)) h2.1
      · rw [getD_set_ne (Ne.symm hcase)] at hid'
        obtain ⟨n'', hn''1, hn''2⟩ := h.buckets i hi' id' hid'
        refine ⟨n'', ?_, hn''2⟩
        rw [← hsplit] at hn''1
        rcases List.mem_append.mp hn''1 with hmem1 | hmem2
        · exact hmem1
        · exfalso
          have he := List.mem_singleton.mp hmem2
          have hfst : id' = id := congrArg Prod.fst he
          have hsnd : n'' = n := congrArg Prod.snd he
          rw [hsnd] at hn''2
          exact hcase hn''2.symm
    · intro x hx
      have hxn : x ∈ ids c.nodes := by
        rw [hids]
        exact List.mem_append_left _ hx
      exact h.fresh x hxn

/-- When the eviction loop returns, the invariant still holds, the new item
fits, and the configuration fields are untouched. -/
theorem evictLoopFuel_inv : ∀ {fuel : Nat} {c c' : LRUCache} {need : Nat},
    CacheInv c → evictLoopFuel fuel c need = some c' →
    CacheInv c' ∧ c'.size + need ≤ c'.capacity ∧ c'.capacity = c.capacity ∧
      c'.tableSize = c.tableSize ∧ c'.nextId = c.nextId := by
  intro fuel
  induction fuel with
  | zero =>
    intro c c' need h hp
    unfold evictLoopFuel at hp
    split at hp
    · cases hp
    · next hcond =>
        cases hp
        exact ⟨h, Nat.le_of_not_lt hcond, rfl, rfl, rfl⟩
  | succ fuel' ih =>
    intro c c' need h hp
    unfold evictLoopFuel at hp
    split at hp
    · split at hp
      · cases hp
      · have h2 := cacheInv_evict h
        obtain ⟨hinv, hle, hcap, hts, hnid⟩ := ih h2 hp
        obtain ⟨hc1, hc2, hc3⟩ := evictLru_fields c
        exact ⟨hinv, hle, hcap.trans hc1, hts.trans hc2, hnid.trans hc3⟩
    · next hcond =>
        cases hp
        exact ⟨h, Nat.le_of_not_lt hcond, rfl, rfl, rfl⟩

/-- An eviction loop started with enough fuel—in particular, with fuel equal
to the recency-list length, as `evictLoop` does—returns, provided the byte
accounting is exact and the item can ever fit. -/
theorem evictLoopFuel_isSome : ∀ {fuel : Nat} {c : LRUCache} {need : Nat},
    c.nodes.length ≤ fuel → c.size = sumSizes c.nodes → need ≤ c.capacity →
    (evictLoopFuel fuel c need).isSome = true := by
  intro fuel
  induction fuel with
  | zero =>
    intro c need hf hsz hneed
    have hnil : c.nodes = [] := List.length_eq_zero.mp (Nat.le_zero.mp hf)
    unfold evictLoopFuel
    split
    · next hcond =>
        exfalso
        have h0 : c.size = 0 := by
          rw [hsz, hnil]
          rfl
        rw [h0] at hcond
        omega
    · rfl
  | succ fuel' ih =>
    intro c need hf hsz hneed
    unfold evictLoopFuel
    split
    · next hcond =>
        rcases hlast : c.nodes.getLast? with - | ⟨id, n⟩
        · exfalso
          have hnil : c.nodes = [] := by
            cases hn : c.nodes with
            | nil => rfl
            | cons a l => rw [hn] at hlast; simp at hlast
          have h0 : c.size = 0 := by
            rw [hsz, hnil]
            rfl
          rw [h0] at hcond
          omega
        · show (evictLoopFuel fuel' (evictLru c) need).isSome = true
          apply ih
          · rw [evictLru_nodes hlast, List.length_dropLast]
            omega
          · exact evictLru_sum hsz
          · rw [(evictLru_fields c).1]
            exact hneed
    · rfl

/-- `put_in_cache` preserves the invariant and the capacity. -/
theorem cacheInv_put {em : Nat} {c c' : LRUCache} (h : CacheInv c)
    {key : List Char} {data : List Nat} {dsize : Nat}
    (hp : putInCache em c key data dsize = some c') :
    CacheInv c' ∧ c'.capacity = c.capacity := by
  unfold putInCache at hp
  split at hp
  · cases hp
    exact ⟨h, rfl⟩
  · split at hp
    · cases hp
    · next c1 hloop =>
        obtain ⟨h1, hle, hcap, hts, hnid⟩ := evictLoopFuel_inv h hloop
        have hH : hashIdx c1.tableSize key < c1.table.length := by
          rw [h1.tlen]
          exact Nat.mod_lt _ h1.tpos
        have hnotin : c1.nextId ∉ ids c1.nodes := by
          intro hx
          exact absurd (h1.fresh _ hx) (Nat.lt_irrefl _)
        have hnotinf : c1.nextId ∉ c1.table.flatten := by
          intro hx
          exact hnotin ((h1.mem_iff _).mpr hx)
        have e1 := flatten_set_decomp c1.table _ hH
          (c1.nextId :: c1.table.getD (hashIdx c1.tableSize key) [])
        have e2 := flatten_decomp c1.table _ hH
        have hpm : (c1.table.set (hashIdx c1.tableSize key)
            (c1.nextId :: c1.table.getD (hashIdx c1.tableSize key) [])).flatten.Perm
            (c1.nextId :: c1.table.flatten) := by
          rw [e1]
          conv_rhs => rw [e2]
          simp only [List.append_assoc, List.cons_append]
          exact List.perm_middle
        cases hp
        refine ⟨{ tpos := h1.tpos, tlen := ?_, size_eq := ?_, size_le := hle,
                  ndup := ?_, fdup := ?_, mem_iff := ?_, buckets := ?_,
                  fresh := ?_ }, hcap⟩
        · simp [List.length_set, h1.tlen]
        · show c1.size + dsize = sumSizes ((c1.nextId, ⟨key, data.take dsize, dsize⟩) :: c1.nodes)
          simp [sumSizes, h1.size_eq, Nat.add_comm]
        · show (ids ((c1.nextId, ⟨key, data.take dsize, dsize⟩) :: c1.nodes)).Nodup
          simp only [ids, List.map_cons, List.nodup_cons]
          exact ⟨hnotin, h1.ndup⟩
        · exact hpm.nodup_iff.mpr (List.nodup_cons.mpr ⟨hnotinf, h1.fdup⟩)
        · intro x
          rw [hpm.mem_iff]
          show x ∈ ids ((c1.nextId, (⟨key, data.take dsize, dsize⟩ : CacheNode))
              :: c1.nodes) ↔ x ∈ c1.nextId :: c1.table.flatten
          simp only [ids, List.map_cons, List.mem_cons]
          exact or_congr_right (h1.mem_iff x)
        · intro i hi id' hid'
          have hi' : i < c1.table.length := by simpa [List.length_set] using hi
          by_cases hcase : i = hashIdx c1.tableSize key
          · subst hcase
            rw [getD_set_self hH] at hid'
            rcases List.mem_cons.mp hid' with he | hb
            · subst he
              exact ⟨⟨key, data.take dsize, dsize⟩, List.mem_cons_self _ _, rfl⟩
            · obtain ⟨n'', hn1, hn2⟩ := h1.buckets _ hH id' hb
              exact ⟨n'', List.mem_cons_of_mem _ hn1, hn2⟩
          · rw [getD_set_ne (Ne.symm hcase)] at hid'
            obtain ⟨n'', hn1, hn2⟩ := h1.buckets i hi' id' hid'
            exact ⟨n'', List.mem_cons_of_mem _ hn1, hn2⟩
        · intro x hx
          show x < c1.nextId + 1
          have hx' : x = c1.nextId ∨ ∃ m, (x, m) ∈ c1.nodes := by
            simpa [ids] using hx
          rcases hx' with he | ⟨m, hm⟩
          · omega
          · exact Nat.lt_succ_of_lt
              (h1.fresh x (List.mem_map.mpr ⟨(x, m), hm, rfl⟩))

/-- The cache states the program can reach with a fixed configuration:
creation followed by any sequence of `get_from_cache` and (returning)
`put_in_cache` calls. -/
inductive Reachable (em cap tsize : Nat) : LRUCache → Prop where
  | init : 0 < tsize → Reachable em cap tsize (createCache cap tsize)
  | get : ∀ {c : LRUCache} (key : List Char), Reachable em cap tsize c →
      Reachable em cap tsize (getFromCache c key).2
  | put : ∀ {c c' : LRUCache} (key : List Char) (data : List Nat) (dsize : Nat),
      Reachable em cap tsize c → putInCache em c key data dsize = some c' →
      Reachable em cap tsize c'

/-- Every reachable cache satisfies the invariant with the configured
capacity. -/
theorem reachable_inv {em cap tsize : Nat} {c : LRUCache}
    (h : Reachable em cap tsize c) : CacheInv c ∧ c.capacity = cap := by
  induction h with
  | init hpos => exact ⟨cacheInv_create cap tsize hpos, rfl⟩
  | get key hr ih =>
      obtain ⟨hin, hcap⟩ := ih
      obtain ⟨h1, h2⟩ := cacheInv_get hin key
      exact ⟨h1, h2.trans hcap⟩
  | put key data dsize hr hp ih =>
      obtain ⟨hin, hcap⟩ := ih
      obtain ⟨h1, h2⟩ := cacheInv_put hin hp
      exact ⟨h1, h2.trans hcap⟩

/-- C5.  After any sequence of cache operations, the sum of `data_size` over
the resident entries equals the cache's current size and stays within the
configured capacity, and the recency list and the hash chains contain
exactly the same set of nodes, each node appearing exactly once in each
structure (both id lists are duplicate-free and have the same members). -/
theorem cache_invariants (em cap tsize : Nat) (c : LRUCache)
    (h : Reachable em cap tsize c) :
    sumSizes c.nodes = c.size ∧ c.size ≤ cap ∧
    (ids c.nodes).Nodup ∧ c.table.flatten.Nodup ∧
    (∀ id, id ∈ ids c.nodes ↔ id ∈ c.table.flatten) := by
  obtain ⟨hin, hcap⟩ := reachable_inv h
  exact ⟨hin.size_eq.symm, hcap ▸ hin.size_le, hin.ndup, hin.fdup, hin.mem_iff⟩

/-- Key used by the C5 witness state. -/
def c5Key : List Char := "w".toList

/-- A reachable cache: one put into a fresh cache of capacity 10. -/
def c5w : LRUCache :=
  (putInCache 5 (createCache 10 4) c5Key [1, 2] 2).getD (createCache 10 4)

/-- C5, witnessed on the concrete reachable state `c5w`. -/
theorem cache_invariants_witness :
    sumSizes c5w.nodes = c5w.size ∧ c5w.size ≤ 10 ∧
    (ids c5w.nodes).Nodup ∧ c5w.table.flatten.Nodup ∧
    (0 ∈ ids c5w.nodes ↔ 0 ∈ c5w.table.flatten) := by
  have h := cache_invariants 5 10 4 c5w
    (Reachable.put c5Key [1, 2] 2 (Reachable.init (by decide)) (by decide))
  exact ⟨h.1, h.2.1, h.2.2.1, h.2.2.2.1, h.2.2.2.2 0⟩

/-- C9.  When the byte accounting is exact, every resident entry holds at
least one byte (true of every entry the program inserts, since
`handle_http_request` only calls `put_in_cache` with a positive
`total_response_size`), and the incoming `data_size` is at most the cache
capacity, the eviction loop of `put_in_cache` terminates; moreover whenever
the loop guard holds the cache is non-empty and one `evict_lru` strictly
decreases the cache's current size (so the same two facts hold at every
iteration, whose state satisfies the same hypotheses). -/
theorem evict_loop_terminates (c : LRUCache) (need : Nat)
    (hsz : c.size = sumSizes c.nodes)
    (hpos : ∀ p ∈ c.nodes, 0 < p.2.data_size)
    (hneed : need ≤ c.capacity) :
    (evictLoop c need).isSome = true ∧
    (c.capacity < c.size + need → c.nodes ≠ [] ∧ (evictLru c).size < c.size) := by
  constructor
  · exact evictLoopFuel_isSome (Nat.le_refl _) hsz hneed
  · intro hgt
    have hne : c.nodes ≠ [] := by
      intro h0
      rw [hsz, h0] at hgt
      have : sumSizes [] = 0 := rfl
      omega
    refine ⟨hne, ?_⟩
    rcases hlast : c.nodes.getLast? with - | ⟨id, n⟩
    · exact absurd (List.getLast?_eq_none_iff.mp hlast) hne
    · have hsplit : c.nodes.dropLast ++ [(id, n)] = c.nodes :=
        List.dropLast_append_getLast? _ (Option.mem_def.mpr hlast)
      have hmem : (id, n) ∈ c.nodes := by
        rw [← hsplit]
        exact List.mem_append_right _ (List.mem_singleton_self _)
      have hposn : 0 < n.data_size := hpos (id, n) hmem
      have hsum : sumSizes c.nodes = sumSizes c.nodes.dropLast + n.data_size := by
        conv_lhs => rw [← hsplit]
        simp [sumSizes]
      have hszle : n.data_size ≤ c.size := by
        rw [hsz, hsum]
        omega
      have heqs : (evictLru c).size = c.size - n.data_size := by
        simp [evictLru, hlast]
      rw [heqs]
      omega

/-- A concrete cache state for the C9 witness: capacity 2, one resident
1-byte entry. -/
def c9w : LRUCache :=
  (putInCache 2 (createCache 2 4) ("x".toList) [5] 1).getD (createCache 2 4)

/-- C9, witnessed on `c9w` with an incoming 2-byte item, which forces one
eviction. -/
theorem evict_loop_terminates_witness :
    (evictLoop c9w 2).isSome = true ∧
    (c9w.capacity < c9w.size + 2 → c9w.nodes ≠ [] ∧ (evictLru c9w).size < c9w.size) :=
  evict_loop_terminates c9w 2 (by decide) (by decide) (by decide)

/- ------------------------------------------------------------------ -/
/- Task queue refinement (C8).                                         -/
/- ------------------------------------------------------------------ -/

/-- The abstract FIFO content of the circular buffer: the `size` slots
starting at `head`, in dequeue order. -/
def absQ (q : TaskQueue) : List Int :=
  (List.range q.size).map (fun i => q.sockets.getD ((q.head + i) % q.capacity) 0)

/-- Structural invariant of the circular buffer. -/
structure QInv (q : TaskQueue) : Prop where
  cpos : 0 < q.capacity
  len : q.sockets.length = q.capacity
  size_le : q.size ≤ q.capacity
  head_lt : q.head < q.capacity
  tail_eq : q.tail = (q.head + q.size) % q.capacity

/-- `init_task_queue` establishes the invariant. -/
theorem qInv_init (cap : Nat) (h : 0 < cap) : QInv (initTaskQueue cap) where
  cpos := h
  len := by simp [initTaskQueue]
  size_le := Nat.zero_le _
  head_lt := h
  tail_eq := by simp [initTaskQueue]

/-- Enqueue on a non-full queue preserves the invariant and appends the
socket at the rear of the abstract FIFO. -/
theorem enqueue_spec {q : TaskQueue} (h : QInv q) (hlt : q.size < q.capacity)
    (s : Int) :
    QInv (enqueueTask q s) ∧ absQ (enqueueTask q s) = absQ q ++ [s] := by
  constructor
  · exact {
      cpos := h.cpos
      len := by simp [enqueueTask, List.length_set, h.len]
      size_le := hlt
      head_lt := h.head_lt
      tail_eq := by
        show (q.tail + 1) % q.capacity = (q.head + (q.size + 1)) % q.capacity
        rw [h.tail_eq, Nat.mod_add_mod, Nat.add_assoc] }
  · show (List.range (q.size + 1)).map
        (fun i => (q.sockets.set q.tail s).getD ((q.head + i) % q.capacity) 0) =
      absQ q ++ [s]
    rw [List.range_succ, List.map_append]
    congr 1
    · apply List.map_congr_left
      intro i hi
      have hilt : i < q.size := List.mem_range.mp hi
      apply getD_set_ne
      rw [h.tail_eq]
      intro hmod
      have hcan : q.size % q.capacity = i % q.capacity :=
        Nat.ModEq.add_left_cancel' q.head hmod
      rw [Nat.mod_eq_of_lt hlt, Nat.mod_eq_of_lt (Nat.lt_trans hilt hlt)] at hcan
      omega
    · show [(q.sockets.set q.tail s).getD ((q.head + q.size) % q.capacity) 0] = [s]
      rw [← h.tail_eq]
      rw [getD_set_self (by rw [h.len]; rw [h.tail_eq]; exact Nat.mod_lt _ h.cpos)]

/-- Dequeue on a non-empty queue preserves the invariant, returns the front
of the abstract FIFO, and leaves its tail. -/
theorem dequeue_spec {q : TaskQueue} (h : QInv q) (hpos : 0 < q.size)
    (r : Bool) :
    QInv (dequeueTask r q).2 ∧
    (dequeueTask r q).1 = (absQ q).getD 0 0 ∧
    absQ (dequeueTask r q).2 = (absQ q).tail := by
  have hcond : ¬(q.size = 0 ∧ r = false) := by
    intro hc
    omega
  obtain ⟨m, hm⟩ := Nat.exists_eq_succ_of_ne_zero (Nat.pos_iff_ne_zero.mp hpos)
  have habs : absQ q = q.sockets.getD (q.head % q.capacity) 0 ::
      (List.range m).map
        (fun i => q.sockets.getD ((q.head + (i + 1)) % q.capacity) 0) := by
    show (List.range q.size).map _ = _
    rw [hm, List.range_succ_eq_map, List.map_cons, List.map_map]
    simp [Function.comp]
  refine ⟨?_, ?_, ?_⟩
  · exact {
      cpos := by
        simp only [dequeueTask, if_neg hcond]
        exact h.cpos
      len := by simp [dequeueTask, hcond, h.len]
      size_le := by
        simp only [dequeueTask, if_neg hcond]
        exact Nat.le_trans (Nat.sub_le _ _) h.size_le
      head_lt := by
        simp only [dequeueTask, if_neg hcond]
        exact Nat.mod_lt _ h.cpos
      tail_eq := by
        simp only [dequeueTask, if_neg hcond]
        show q.tail = ((q.head + 1) % q.capacity + (q.size - 1)) % q.capacity
        rw [Nat.mod_add_mod, h.tail_eq]
        congr 1
        omega }
  · simp only [dequeueTask, if_neg hcond]
    rw [habs]
    show q.sockets.getD q.head 0 = q.sockets.getD (q.head % q.capacity) 0
    rw [Nat.mod_eq_of_lt h.head_lt]
  · simp only [dequeueTask, if_neg hcond]
    rw [habs]
    show (List.range (q.size - 1)).map
        (fun i => q.sockets.getD (((q.head + 1) % q.capacity + i) % q.capacity) 0) = _
    rw [hm]
    simp only [Nat.add_sub_cancel, List.tail_cons]
    apply List.map_congr_left
    intro i hi
    rw [Nat.mod_add_mod]
    have harith : q.head + 1 + i = q.head + (i + 1) := by omega
    rw [harith]

/-- The queue states the program can reach: initialization followed by any
sequence of completed enqueue and dequeue calls (the condition-variable
waits ensure the bodies run only when not full, respectively not empty or
stopping). -/
inductive QReach (cap : Nat) : TaskQueue → Prop where
  | init : 0 < cap → QReach cap (initTaskQueue cap)
  | enq : ∀ {q : TaskQueue} (s : Int), QReach cap q → q.size < q.capacity →
      QReach cap (enqueueTask q s)
  | deq : ∀ {q : TaskQueue} (r : Bool), QReach cap q → 0 < q.size →
      QReach cap (dequeueTask r q).2

/-- Every reachable queue satisfies the invariant. -/
theorem qReach_inv {cap : Nat} {q : TaskQueue} (h : QReach cap q) : QInv q := by
  induction h with
  | init hpos => exact qInv_init cap hpos
  | enq s hr hlt ih => exact (enqueue_spec ih hlt s).1
  | deq r hr hpos ih => exact (dequeue_spec ih hpos r).1

/-- C8.  In every reachable queue state the size is within `0 ≤ size ≤
capacity` (the lower bound is inherent in the `Nat` size), an enqueue on a
non-full queue appends its socket at the rear of the abstract FIFO, and a
dequeue on a non-empty queue returns the front of the abstract FIFO and
leaves exactly its tail — so sockets are dequeued in exactly the order they
were enqueued. -/
theorem task_queue_fifo (cap : Nat) (q : TaskQueue) (h : QReach cap q) :
    q.size ≤ q.capacity ∧
    (∀ s : Int, q.size < q.capacity →
      absQ (enqueueTask q s) = absQ q ++ [s]) ∧
    (∀ r : Bool, 0 < q.size →
      (dequeueTask r q).1 = (absQ q).getD 0 0 ∧
      absQ (dequeueTask r q).2 = (absQ q).tail) := by
  have hinv := qReach_inv h
  exact ⟨hinv.size_le,
    fun s hlt => (enqueue_spec hinv hlt s).2,
    fun r hpos => ⟨(dequeue_spec hinv hpos r).2.1, (dequeue_spec hinv hpos r).2.2⟩⟩

/-- A concrete reachable queue for the C8 witness: capacity 2 with one
enqueued socket. -/
def c8w : TaskQueue := enqueueTask (initTaskQueue 2) 7

/-- C8, witnessed on the concrete queue `c8w`. -/
theorem task_queue_fifo_witness :
    c8w.size ≤ c8w.capacity ∧
    (∀ s : Int, c8w.size < c8w.capacity →
      absQ (enqueueTask c8w s) = absQ c8w ++ [s]) ∧
    (∀ r : Bool, 0 < c8w.size →
      (dequeueTask r c8w).1 = (absQ c8w).getD 0 0 ∧
      absQ (dequeueTask r c8w).2 = (absQ c8w).tail) :=
  task_queue_fifo 2 c8w
    (QReach.enq 7 (QReach.init (by decide)) (by decide))

/- ------------------------------------------------------------------ -/
/- Parser frame property (C10).                                        -/
/- ------------------------------------------------------------------ -/

/-- C10.  `ParsedRequest_parse` never modifies the caller's buffer: the only
access to `buf` is the `memcpy` read that initializes `temp_buf`, and all
`strtok` NUL-writes and the path cut/restore hit the private `temp_buf` and
`uri_copy` regions, so on every path — success or failure — the caller
region's final contents equal its initial contents. -/
theorem parse_preserves_input_buffer (buf : List Char) (buflen : Nat) :
    (ParsedRequest_parse_mem buf buflen).2.caller = buf := by
  simp only [ParsedRequest_parse_mem]
  repeat' split
  all_goals rfl

end ProxyVerify

